import Mathlib

/-!
Verification of the sonification engine of `repo-art-generator`
(`src/repo_art/sonifier.py`, class `MusicGenerator`).

Modelling conventions of this shallow embedding:

* Python float arithmetic is modelled by exact rational arithmetic (`ℚ`);
  the specification states its numeric properties in exact arithmetic.
* `math.sin(2 * math.pi * x)` is abstracted by a parameter `osc : ℚ → ℚ`
  with `osc u` standing for `sin(2 * pi * u)` (the argument is kept in
  cycles, so the factor `2 * pi` never has to be represented).  Theorems
  quantified over `osc` hold in particular for the real sine.
* Python `int(x)` is truncation toward zero (`pyInt`); `sample_rate` is
  declared `int` in the source and is modelled by `ℤ`.
* Rational division by zero is total (returns 0) in Lean; every division
  in the embedded code is reachable only with a nonzero divisor (the
  source guards `time_range`, `max_activity`, `activity` and the envelope
  boundaries the same way), except that Python raises `ValueError` when
  `max()` is applied to an empty buffer, which is modelled by `Option`.
* The buffer is a `List ℚ`; `audio[k] += v` at an in-range index is
  `List.set k (getD k 0 + v)`.  Negative Python indices cannot arise in
  the mixing loop: the write index is guarded by the break condition and
  the start sample is nonnegative for every commit of the rendered list.
-/

namespace RepoArt

/-- One commit event: a timestamp plus additive and subtractive magnitudes
(`additions` / `deletions` in the source). -/
structure Commit where
  timestamp : ℤ
  additions : ℕ
  deletions : ℕ
deriving DecidableEq

/-- Configuration surface of `MusicGenerator.__init__`:
`sample_rate` (declared `int`), `duration_per_commit`, `base_frequency`. -/
structure Config where
  sample_rate : ℤ
  duration_per_commit : ℚ
  base_frequency : ℚ
deriving DecidableEq

/-- Python `int()` applied to a (finite) numeric value: truncation toward zero. -/
def pyInt (q : ℚ) : ℤ := if q < 0 then -⌊-q⌋ else ⌊q⌋

/-- Envelope boundary `attack_time = min(0.01, duration * 0.1)`
(`_adsr_envelope`, sonifier.py line 124). -/
def attackTime (duration : ℚ) : ℚ := min 0.01 (duration * 0.1)

/-- Envelope boundary `decay_time = min(0.02, duration * 0.2)` (line 125). -/
def decayTime (duration : ℚ) : ℚ := min 0.02 (duration * 0.2)

/-- Envelope boundary `release_time = min(0.05, duration * 0.3)` (line 126). -/
def releaseTime (duration : ℚ) : ℚ := min 0.05 (duration * 0.3)

/-- `sustain_level = 0.7` (line 127). -/
def sustainLevel : ℚ := 0.7

/-- `MusicGenerator._adsr_envelope(t, duration)` (sonifier.py lines 118-142):
four-branch piecewise envelope over elapsed time `t` within a note. -/
def adsrEnvelope (t duration : ℚ) : ℚ :=
  if t < attackTime duration then
    t / attackTime duration
  else if t < attackTime duration + decayTime duration then
    1.0 - (1.0 - sustainLevel) * ((t - attackTime duration) / decayTime duration)
  else if t < duration - releaseTime duration then
    sustainLevel
  else
    sustainLevel * (1.0 - ((t - (duration - releaseTime duration)) / releaseTime duration))

/-- The attack-branch formula `t / attack_time` as a standalone function
(used to state continuity at the attack/decay boundary). -/
def attackPhaseValue (t d : ℚ) : ℚ := t / attackTime d

/-- The decay-branch formula `1 - (1 - sustain) * progress`. -/
def decayPhaseValue (t d : ℚ) : ℚ :=
  1.0 - (1.0 - sustainLevel) * ((t - attackTime d) / decayTime d)

/-- The release-branch formula `sustain * (1 - progress)`. -/
def releasePhaseValue (t d : ℚ) : ℚ :=
  sustainLevel * (1.0 - ((t - (d - releaseTime d)) / releaseTime d))

/-- Frequency multiplier of one commit (sonifier.py lines 71-77):
`0.5 + (additions / activity) * 1.5` when `activity > 0`, else `1.0`. -/
def frequencyMultiplier (additions deletions : ℕ) : ℚ :=
  let activity : ℕ := additions + deletions
  if 0 < activity then 0.5 + ((additions : ℚ) / (activity : ℚ)) * 1.5 else 1.0

/-- The three-harmonic waveform (sonifier.py lines 100-103), with `osc u`
standing for `sin(2 * pi * u)`: fundamental plus 0.3 times the second and
0.1 times the third harmonic. -/
def noteWave (osc : ℚ → ℚ) (frequency t : ℚ) : ℚ :=
  osc (frequency * t) + 0.3 * osc (frequency * 2 * t) + 0.1 * osc (frequency * 3 * t)

/-- Value added to the buffer for the i-th sample of one note
(sonifier.py lines 94-109): waveform times `envelope * volume`, times the
fixed mix-down factor `0.3`. -/
def noteSampleValue (osc : ℚ → ℚ) (cfg : Config)
    (frequency volume note_duration : ℚ) (i : ℕ) : ℚ :=
  let t : ℚ := (i : ℚ) / (cfg.sample_rate : ℚ)
  noteWave osc frequency t * (adsrEnvelope t note_duration * volume) * 0.3

/-- Inner mixing loop of one note (sonifier.py lines 89-109), iterating
`i` with `r` iterations remaining; the `total ≤ start + i` test is the
`break` on buffer overrun (line 90-91; the condition is monotone in `i`,
so breaking and stopping coincide). -/
def mixNoteFrom (osc : ℚ → ℚ) (cfg : Config) (frequency volume note_duration : ℚ)
    (start total : ℕ) : ℕ → ℕ → List ℚ → List ℚ
  | _, 0, b => b
  | i, r + 1, b =>
    if total ≤ start + i then b
    else
      mixNoteFrom osc cfg frequency volume note_duration start total (i + 1) r
        (b.set (start + i)
          (b.getD (start + i) 0 + noteSampleValue osc cfg frequency volume note_duration i))

/-- Rendering one note into the buffer: the loop of lines 89-109 started
at `i = 0` with `note_samples` iterations. -/
def mixNote (osc : ℚ → ℚ) (cfg : Config) (frequency volume note_duration : ℚ)
    (start total note_samples : ℕ) (b : List ℚ) : List ℚ :=
  mixNoteFrom osc cfg frequency volume note_duration start total 0 note_samples b

/-- `min(timestamps)` over the commit list (sonifier.py line 51); `0` for the
empty list, which the source never queries. -/
def minTime (commits : List Commit) : ℤ :=
  match commits.map Commit.timestamp with
  | [] => 0
  | a :: rest => rest.foldl min a

/-- `max(timestamps)` over the commit list (line 51). -/
def maxTime (commits : List Commit) : ℤ :=
  match commits.map Commit.timestamp with
  | [] => 0
  | a :: rest => rest.foldl max a

/-- `time_range = max_time - min_time or 1` (line 52): Python `or` replaces
a zero range by `1`. -/
def timeRange (commits : List Commit) : ℤ :=
  if maxTime commits - minTime commits = 0 then 1 else maxTime commits - minTime commits

/-- `max(c.additions + c.deletions for c in commits)` before the `or 1`
floor (line 62); `0` for the empty list. -/
def maxActivityRaw (commits : List Commit) : ℕ :=
  match commits.map (fun c => c.additions + c.deletions) with
  | [] => 0
  | a :: rest => rest.foldl max a

/-- `max_activity = max(...) or 1` (line 62). -/
def maxActivity (commits : List Commit) : ℕ :=
  if maxActivityRaw commits = 0 then 1 else maxActivityRaw commits

/-- `total_duration = min(60.0, len(commits) * duration_per_commit)` (line 55). -/
def totalDuration (cfg : Config) (n : ℕ) : ℚ :=
  min 60.0 ((n : ℚ) * cfg.duration_per_commit)

/-- `total_samples = int(total_duration * sample_rate)` (line 56), as the
Python integer. -/
def totalSamplesZ (cfg : Config) (n : ℕ) : ℤ :=
  pyInt (totalDuration cfg n * (cfg.sample_rate : ℚ))

/-- Length of the zero-filled buffer `[0.0] * total_samples` (line 59):
Python list replication by a nonpositive count yields the empty list. -/
def totalSamplesNat (cfg : Config) (n : ℕ) : ℕ := (totalSamplesZ cfg n).toNat

/-- `t_norm = (commit.timestamp - min_time) / time_range` (line 67). -/
def tNorm (commits : List Commit) (c : Commit) : ℚ :=
  ((c.timestamp - minTime commits : ℤ) : ℚ) / ((timeRange commits : ℤ) : ℚ)

/-- `start_sample = int(t_norm * total_samples)` (line 68), as the Python
integer. -/
def startSampleZ (cfg : Config) (commits : List Commit) (c : Commit) : ℤ :=
  pyInt (tNorm commits c * (totalSamplesZ cfg commits.length : ℚ))

/-- `note_samples = int(note_duration * sample_rate)` (line 86), clamped to
`ℕ` (`range(n)` over a nonpositive count is empty). -/
def noteSamplesNat (cfg : Config) : ℕ :=
  (pyInt (cfg.duration_per_commit * (cfg.sample_rate : ℚ))).toNat

/-- `volume = min(1.0, (activity / max_activity) * 0.5)` (line 82). -/
def commitVolume (commits : List Commit) (c : Commit) : ℚ :=
  min 1.0 ((((c.additions + c.deletions : ℕ) : ℚ) / (maxActivity commits : ℚ)) * 0.5)

/-- `frequency = base_frequency * frequency_multiplier` (line 79). -/
def commitFrequency (cfg : Config) (c : Commit) : ℚ :=
  cfg.base_frequency * frequencyMultiplier c.additions c.deletions

/-- One iteration of the outer per-commit loop (lines 65-109): render the
note of commit `c` into buffer `b`.  The derived scalars are computed from
the full commit list, as in the source. -/
def commitStep (osc : ℚ → ℚ) (cfg : Config) (commits : List Commit)
    (b : List ℚ) (c : Commit) : List ℚ :=
  mixNote osc cfg (commitFrequency cfg c) (commitVolume commits c)
    cfg.duration_per_commit ((startSampleZ cfg commits c).toNat)
    (totalSamplesNat cfg commits.length) (noteSamplesNat cfg) b

/-- The full mixing phase (lines 59-109): fold the per-commit loop over the
zero-filled buffer. -/
def mixAll (osc : ℚ → ℚ) (cfg : Config) (commits : List Commit) : List ℚ :=
  commits.foldl (commitStep osc cfg commits)
    (List.replicate (totalSamplesNat cfg commits.length) 0)

/-- `max(abs(s) for s in b)` for a nonempty buffer (line 112); `0` for the
empty buffer, where the source raises instead (see `sonify`). -/
def peakAbs : List ℚ → ℚ
  | [] => 0
  | a :: rest => (rest.map (fun s => |s|)).foldl max |a|

/-- Post-mix normalization (lines 111-114): `max_val = peak or 1.0`; divide
every sample by `max_val` exactly when `max_val > 1.0`. -/
def normalizePass (b : List ℚ) : List ℚ :=
  let max_val := if peakAbs b = 0 then 1.0 else peakAbs b
  if 1.0 < max_val then b.map (fun s => s / max_val) else b

/-- `MusicGenerator._generate_sonification` (lines 36-116).  Returns `none`
exactly where Python raises: `max()` over an empty buffer (`ValueError`)
when the commit list is nonempty but `total_samples = 0`. -/
def sonify (osc : ℚ → ℚ) (cfg : Config) (commits : List Commit) : Option (List ℚ) :=
  if commits = [] then some []
  else
    match mixAll osc cfg commits with
    | [] => none
    | a :: rest => some (normalizePass (a :: rest))

/-- `MusicGenerator._write_silence` (lines 161-164): `[0.0] * int(duration *
sample_rate)`. -/
def writeSilenceSamples (cfg : Config) (duration : ℚ) : List ℚ :=
  List.replicate (pyInt (duration * (cfg.sample_rate : ℚ))).toNat 0

/-- Sample buffer produced by `MusicGenerator.generate` (lines 23-34): one
second of silence for an empty commit list, otherwise the sonification. -/
def generateSamples (osc : ℚ → ℚ) (cfg : Config) (commits : List Commit) :
    Option (List ℚ) :=
  if commits = [] then some (writeSilenceSamples cfg 1.0) else sonify osc cfg commits

/-- Encoding of one sample in `_write_wav` (lines 154-158): clamp to
`[-1.0, 1.0]`, scale by `32767`, convert with Python `int()`. -/
def wavInt (sample : ℚ) : ℤ := pyInt (max (-1.0) (min 1.0 sample) * 32767)

/-- The integer sample stream written by `_write_wav` (lines 155-159). -/
def wavData (samples : List ℚ) : List ℤ := samples.map wavInt

/-- Contribution of one note to buffer index `j`: the value the inner loop
adds there, `0` outside the written range (in particular `0` at every index
at or beyond `total`: overruns are dropped, line 90-91). -/
def noteContrib (osc : ℚ → ℚ) (cfg : Config) (frequency volume note_duration : ℚ)
    (start total note_samples : ℕ) (j : ℕ) : ℚ :=
  if start ≤ j ∧ j < start + note_samples ∧ j < total then
    noteSampleValue osc cfg frequency volume note_duration (j - start)
  else 0

/-- Contribution of commit `c` to buffer index `j`, in the render context of
the full list `commits`. -/
def commitContrib (osc : ℚ → ℚ) (cfg : Config) (commits : List Commit)
    (c : Commit) (j : ℕ) : ℚ :=
  noteContrib osc cfg (commitFrequency cfg c) (commitVolume commits c)
    cfg.duration_per_commit ((startSampleZ cfg commits c).toNat)
    (totalSamplesNat cfg commits.length) (noteSamplesNat cfg) j

/-- Peak absolute amplitude a single commit contributes to the buffer, in
the render context of the full list `commits`. -/
def contribPeak (osc : ℚ → ℚ) (cfg : Config) (commits : List Commit) (c : Commit) : ℚ :=
  peakAbs ((List.range (totalSamplesNat cfg commits.length)).map
    (commitContrib osc cfg commits c))

/-! Helper lemmas about `pyInt`. -/

lemma pyInt_of_nonneg {q : ℚ} (h : 0 ≤ q) : pyInt q = ⌊q⌋ := by
  simp [pyInt, not_lt.mpr h]

lemma pyInt_intCast (n : ℤ) : pyInt (n : ℚ) = n := by
  rcases lt_or_le (n : ℚ) 0 with h | h
  · simp only [pyInt, if_pos h]
    rw [show (-(n : ℚ)) = ((-n : ℤ) : ℚ) by push_cast; ring, Int.floor_intCast]
    ring
  · rw [pyInt_of_nonneg h, Int.floor_intCast]

lemma pyInt_nonneg {q : ℚ} (h : 0 ≤ q) : 0 ≤ pyInt q := by
  rw [pyInt_of_nonneg h]
  exact Int.floor_nonneg.mpr h

lemma pyInt_le_of_le {q : ℚ} {n : ℤ} (h : q ≤ (n : ℚ)) : pyInt q ≤ n := by
  rcases lt_or_le q 0 with hq | hq
  · simp only [pyInt, if_pos hq]
    rw [Int.floor_neg, neg_neg]
    calc ⌈q⌉ ≤ ⌈(n : ℚ)⌉ := Int.ceil_le_ceil h
      _ = n := Int.ceil_intCast n
  · rw [pyInt_of_nonneg hq]
    calc ⌊q⌋ ≤ ⌊(n : ℚ)⌋ := Int.floor_le_floor h
      _ = n := Int.floor_intCast n

lemma le_pyInt_of_le {q : ℚ} {n : ℤ} (h : (n : ℚ) ≤ q) : n ≤ pyInt q := by
  rcases lt_or_le q 0 with hq | hq
  · simp only [pyInt, if_pos hq]
    rw [Int.floor_neg, neg_neg]
    calc n = ⌈(n : ℚ)⌉ := (Int.ceil_intCast n).symm
      _ ≤ ⌈q⌉ := Int.ceil_le_ceil h
  · rw [pyInt_of_nonneg hq]
    calc n = ⌊(n : ℚ)⌋ := (Int.floor_intCast n).symm
      _ ≤ ⌊q⌋ := Int.floor_le_floor h

/-! Helper lemmas about left folds of `max` and `min`. -/

lemma le_foldl_max {α : Type} [LinearOrder α] :
    ∀ (l : List α) (b : α), b ≤ l.foldl max b
  | [], _ => le_refl _
  | a :: l, b => le_trans (le_max_left b a) (le_foldl_max l (max b a))

lemma le_foldl_max_of_mem {α : Type} [LinearOrder α] :
    ∀ {l : List α} {x : α} (_ : x ∈ l) (b : α), x ≤ l.foldl max b := by
  intro l
  induction l with
  | nil => intro x hx; cases hx
  | cons a l ih =>
    intro x hx b
    rcases List.mem_cons.mp hx with h | h
    · subst h
      exact le_trans (le_max_right b x) (le_foldl_max l (max b x))
    · exact ih h (max b a)

lemma foldl_max_choice {α : Type} [LinearOrder α] :
    ∀ (l : List α) (b : α), l.foldl max b = b ∨ l.foldl max b ∈ l := by
  intro l
  induction l with
  | nil => intro b; exact Or.inl rfl
  | cons a l ih =>
    intro b
    rcases ih (max b a) with h | h
    · rcases max_choice b a with hb | hb
      · exact Or.inl (by rw [List.foldl_cons, h, hb])
      · exact Or.inr (by rw [List.foldl_cons, h, hb]; exact List.mem_cons_self a l)
    · exact Or.inr (List.mem_cons_of_mem a h)

lemma foldl_min_le {α : Type} [LinearOrder α] :
    ∀ (l : List α) (b : α), l.foldl min b ≤ b
  | [], _ => le_refl _
  | a :: l, b => le_trans (foldl_min_le l (min b a)) (min_le_left b a)

lemma foldl_min_le_of_mem {α : Type} [LinearOrder α] :
    ∀ {l : List α} {x : α} (_ : x ∈ l) (b : α), l.foldl min b ≤ x := by
  intro l
  induction l with
  | nil => intro x hx; cases hx
  | cons a l ih =>
    intro x hx b
    rcases List.mem_cons.mp hx with h | h
    · subst h
      exact le_trans (foldl_min_le l (min b x)) (min_le_right b x)
    · exact ih h (min b a)

lemma foldl_min_choice {α : Type} [LinearOrder α] :
    ∀ (l : List α) (b : α), l.foldl min b = b ∨ l.foldl min b ∈ l := by
  intro l
  induction l with
  | nil => intro b; exact Or.inl rfl
  | cons a l ih =>
    intro b
    rcases ih (min b a) with h | h
    · rcases min_choice b a with hb | hb
      · exact Or.inl (by rw [List.foldl_cons, h, hb])
      · exact Or.inr (by rw [List.foldl_cons, h, hb]; exact List.mem_cons_self a l)
    · exact Or.inr (List.mem_cons_of_mem a h)

lemma foldl_max_map_mul {k : ℚ} (hk : 0 ≤ k) :
    ∀ (l : List ℚ) (b : ℚ), (l.map (fun x => k * x)).foldl max (k * b) = k * l.foldl max b := by
  intro l
  induction l with
  | nil => intro b; rfl
  | cons a l ih =>
    intro b
    simp only [List.map_cons, List.foldl_cons]
    rw [show max (k * b) (k * a) = k * max b a from (mul_max_of_nonneg b a hk).symm]
    exact ih (max b a)

/-! Helper lemmas about `List.getD`. -/

lemma getD_set_self {l : List ℚ} {n : ℕ} (h : n < l.length) (a : ℚ) :
    (l.set n a).getD n 0 = a := by
  rw [List.getD_eq_getElem _ 0 (by simpa using h)]
  exact List.getElem_set_self (by simpa using h)

lemma getD_set_ne {l : List ℚ} {m n : ℕ} (h : m ≠ n) (a : ℚ) :
    (l.set m a).getD n 0 = l.getD n 0 := by
  rcases lt_or_le n l.length with hn | hn
  · rw [List.getD_eq_getElem _ 0 (by simpa using hn), List.getD_eq_getElem _ 0 hn]
    exact List.getElem_set_of_ne h a (by simpa using hn)
  · rw [List.getD_eq_default _ 0 (by simpa using hn), List.getD_eq_default _ 0 hn]

lemma getD_replicate (n j : ℕ) : (List.replicate n (0 : ℚ)).getD j 0 = 0 := by
  rcases lt_or_le j n with h | h
  · rw [List.getD_eq_getElem _ 0 (by simpa using h)]
    exact List.getElem_replicate 0 (by simpa using h)
  · exact List.getD_eq_default _ 0 (by simpa using h)

lemma list_eq_of_getD {l₁ l₂ : List ℚ} (hlen : l₁.length = l₂.length)
    (h : ∀ j, l₁.getD j 0 = l₂.getD j 0) : l₁ = l₂ := by
  refine List.ext_getElem hlen (fun i h1 h2 => ?_)
  have := h i
  rwa [List.getD_eq_getElem _ 0 h1, List.getD_eq_getElem _ 0 h2] at this

lemma getD_map_range (f : ℕ → ℚ) (n j : ℕ) :
    ((List.range n).map f).getD j 0 = if j < n then f j else 0 := by
  rcases lt_or_le j n with h | h
  · rw [List.getD_eq_getElem _ 0 (by simpa using h), if_pos h]
    simp
  · rw [List.getD_eq_default _ 0 (by simpa using h), if_neg (not_lt.mpr h)]

/-! Helper lemmas about `peakAbs`. -/

lemma peakAbs_nonneg : ∀ (l : List ℚ), 0 ≤ peakAbs l
  | [] => le_refl 0
  | a :: rest => le_trans (abs_nonneg a) (le_foldl_max (rest.map (fun s => |s|)) |a|)

lemma abs_le_peakAbs {l : List ℚ} {s : ℚ} (h : s ∈ l) : |s| ≤ peakAbs l := by
  match l with
  | [] => cases h
  | a :: rest =>
    rcases List.mem_cons.mp h with h | h
    · subst h; exact le_foldl_max _ _
    · exact le_foldl_max_of_mem (List.mem_map_of_mem _ h) _

lemma peakAbs_map_mul {k : ℚ} (hk : 0 ≤ k) :
    ∀ (l : List ℚ), peakAbs (l.map (fun x => k * x)) = k * peakAbs l := by
  intro l
  match l with
  | [] => simp [peakAbs]
  | a :: rest =>
    simp only [List.map_cons, peakAbs]
    rw [show |k * a| = k * |a| by rw [abs_mul, abs_of_nonneg hk]]
    rw [show (rest.map (fun x => k * x)).map (fun s => |s|)
          = (rest.map (fun s => |s|)).map (fun x => k * x) by
        simp only [List.map_map]
        refine List.map_congr_left (fun x _ => ?_)
        simp [Function.comp, abs_mul, abs_of_nonneg hk]]
    exact foldl_max_map_mul hk _ _

/-! Characterization of the inner mixing loop. -/

lemma mixNoteFrom_length (osc : ℚ → ℚ) (cfg : Config) (f v d : ℚ) (start total : ℕ) :
    ∀ (r i : ℕ) (b : List ℚ),
      (mixNoteFrom osc cfg f v d start total i r b).length = b.length := by
  intro r
  induction r with
  | zero => intro i b; rfl
  | succ r ih =>
    intro i b
    simp only [mixNoteFrom]
    split
    · rfl
    · rw [ih (i + 1) _, List.length_set]

lemma mixNote_length (osc : ℚ → ℚ) (cfg : Config) (f v d : ℚ)
    (start total note_samples : ℕ) (b : List ℚ) :
    (mixNote osc cfg f v d start total note_samples b).length = b.length :=
  mixNoteFrom_length osc cfg f v d start total note_samples 0 b

lemma mixNoteFrom_getD (osc : ℚ → ℚ) (cfg : Config) (f v d : ℚ) (start total : ℕ) :
    ∀ (r i : ℕ) (b : List ℚ), b.length = total → ∀ (j : ℕ),
      (mixNoteFrom osc cfg f v d start total i r b).getD j 0 =
        b.getD j 0 + (if start + i ≤ j ∧ j < start + i + r ∧ j < total then
          noteSampleValue osc cfg f v d (j - start) else 0) := by
  intro r
  induction r with
  | zero =>
    intro i b _ j
    rw [if_neg (by omega)]
    simp [mixNoteFrom]
  | succ r ih =>
    intro i b hb j
    simp only [mixNoteFrom]
    split
    · rw [if_neg (by omega)]
      simp
    · rename_i hlt
      push_neg at hlt
      have hset : (b.set (start + i)
          (b.getD (start + i) 0 + noteSampleValue osc cfg f v d i)).length = total := by
        rw [List.length_set, hb]
      rw [ih (i + 1) _ hset j]
      by_cases hj : j = start + i
      · subst hj
        rw [getD_set_self (by omega) _]
        rw [if_neg (by omega), if_pos (by omega)]
        have : start + i - start = i := by omega
        rw [this]
        ring
      · rw [getD_set_ne (by omega) _]
        have : (start + (i + 1) ≤ j ∧ j < start + (i + 1) + r ∧ j < total) ↔
            (start + i ≤ j ∧ j < start + i + (r + 1) ∧ j < total) := by omega
        simp only [this]

lemma mixNote_getD (osc : ℚ → ℚ) (cfg : Config) (f v d : ℚ)
    (start total note_samples : ℕ) (b : List ℚ) (hb : b.length = total) (j : ℕ) :
    (mixNote osc cfg f v d start total note_samples b).getD j 0 =
      b.getD j 0 + noteContrib osc cfg f v d start total note_samples j := by
  rw [mixNote, mixNoteFrom_getD osc cfg f v d start total note_samples 0 b hb j, noteContrib]
  have : (start + 0 ≤ j ∧ j < start + 0 + note_samples ∧ j < total) ↔
      (start ≤ j ∧ j < start + note_samples ∧ j < total) := by omega
  simp only [this]

/-! Characterization of the full mixing phase. -/

lemma foldl_commitStep_length (osc : ℚ → ℚ) (cfg : Config) (commits : List Commit) :
    ∀ (l : List Commit) (b : List ℚ),
      (l.foldl (commitStep osc cfg commits) b).length = b.length := by
  intro l
  induction l with
  | nil => intro b; rfl
  | cons c l ih =>
    intro b
    rw [List.foldl_cons, ih _, commitStep, mixNote_length]

lemma mixAll_length (osc : ℚ → ℚ) (cfg : Config) (commits : List Commit) :
    (mixAll osc cfg commits).length = totalSamplesNat cfg commits.length := by
  rw [mixAll, foldl_commitStep_length, List.length_replicate]

lemma foldl_commitStep_getD (osc : ℚ → ℚ) (cfg : Config) (commits : List Commit) :
    ∀ (l : List Commit) (b : List ℚ),
      b.length = totalSamplesNat cfg commits.length → ∀ (j : ℕ),
      (l.foldl (commitStep osc cfg commits) b).getD j 0 =
        b.getD j 0 + (l.map (fun c => commitContrib osc cfg commits c j)).sum := by
  intro l
  induction l with
  | nil => intro b _ j; simp
  | cons c l ih =>
    intro b hb j
    rw [List.foldl_cons]
    have hb' : (commitStep osc cfg commits b c).length = totalSamplesNat cfg commits.length := by
      rw [commitStep, mixNote_length, hb]
    rw [ih _ hb' j, commitStep, mixNote_getD osc cfg _ _ _ _ _ _ b hb j]
    simp only [List.map_cons, List.sum_cons, commitContrib]
    ring

lemma mixAll_getD (osc : ℚ → ℚ) (cfg : Config) (commits : List Commit) (j : ℕ) :
    (mixAll osc cfg commits).getD j 0 =
      (commits.map (fun c => commitContrib osc cfg commits c j)).sum := by
  rw [mixAll, foldl_commitStep_getD osc cfg commits commits _ (List.length_replicate _ _) j,
    getD_replicate, zero_add]

/-! Derived scalars: bounds, membership, permutation invariance. -/

lemma minTime_le {commits : List Commit} {c : Commit} (hc : c ∈ commits) :
    minTime commits ≤ c.timestamp := by
  match commits with
  | [] => cases hc
  | c0 :: rest =>
    simp only [minTime, List.map_cons]
    rcases List.mem_cons.mp hc with h | h
    · subst h; exact foldl_min_le _ _
    · exact foldl_min_le_of_mem (List.mem_map_of_mem Commit.timestamp h) _

lemma le_maxTime {commits : List Commit} {c : Commit} (hc : c ∈ commits) :
    c.timestamp ≤ maxTime commits := by
  match commits with
  | [] => cases hc
  | c0 :: rest =>
    simp only [maxTime, List.map_cons]
    rcases List.mem_cons.mp hc with h | h
    · subst h; exact le_foldl_max _ _
    · exact le_foldl_max_of_mem (List.mem_map_of_mem Commit.timestamp h) _

lemma minTime_mem {commits : List Commit} (h : commits ≠ []) :
    minTime commits ∈ commits.map Commit.timestamp := by
  match commits with
  | [] => exact absurd rfl h
  | c0 :: rest =>
    simp only [minTime, List.map_cons]
    rcases foldl_min_choice (rest.map Commit.timestamp) c0.timestamp with h | h
    · rw [h]; exact List.mem_cons_self _ _
    · exact List.mem_cons_of_mem _ h

lemma maxTime_mem {commits : List Commit} (h : commits ≠ []) :
    maxTime commits ∈ commits.map Commit.timestamp := by
  match commits with
  | [] => exact absurd rfl h
  | c0 :: rest =>
    simp only [maxTime, List.map_cons]
    rcases foldl_max_choice (rest.map Commit.timestamp) c0.timestamp with h | h
    · rw [h]; exact List.mem_cons_self _ _
    · exact List.mem_cons_of_mem _ h

lemma le_maxActivityRaw {commits : List Commit} {c : Commit} (hc : c ∈ commits) :
    c.additions + c.deletions ≤ maxActivityRaw commits := by
  match commits with
  | [] => cases hc
  | c0 :: rest =>
    simp only [maxActivityRaw, List.map_cons]
    rcases List.mem_cons.mp hc with h | h
    · subst h; exact le_foldl_max _ _
    · exact le_foldl_max_of_mem
        (List.mem_map_of_mem (fun c => c.additions + c.deletions) h) _

lemma maxActivityRaw_mem {commits : List Commit} (h : commits ≠ []) :
    maxActivityRaw commits ∈ commits.map (fun c => c.additions + c.deletions) := by
  match commits with
  | [] => exact absurd rfl h
  | c0 :: rest =>
    simp only [maxActivityRaw, List.map_cons]
    rcases foldl_max_choice (rest.map (fun c => c.additions + c.deletions))
        (c0.additions + c0.deletions) with h | h
    · rw [h]; exact List.mem_cons_self _ _
    · exact List.mem_cons_of_mem _ h

lemma minTime_perm {l l' : List Commit} (hp : l.Perm l') : minTime l = minTime l' := by
  rcases eq_or_ne l [] with h | h
  · subst h
    rw [hp.symm.eq_nil]
  · have h' : l' ≠ [] := fun he => by
      subst he
      exact h hp.eq_nil
    refine le_antisymm ?_ ?_
    · rcases List.mem_map.mp (minTime_mem h') with ⟨c, hc, hts⟩
      exact hts ▸ minTime_le (hp.mem_iff.mpr hc)
    · rcases List.mem_map.mp (minTime_mem h) with ⟨c, hc, hts⟩
      exact hts ▸ minTime_le (hp.mem_iff.mp hc)

lemma maxTime_perm {l l' : List Commit} (hp : l.Perm l') : maxTime l = maxTime l' := by
  rcases eq_or_ne l [] with h | h
  · subst h
    rw [hp.symm.eq_nil]
  · have h' : l' ≠ [] := fun he => by
      subst he
      exact h hp.eq_nil
    refine le_antisymm ?_ ?_
    · rcases List.mem_map.mp (maxTime_mem h) with ⟨c, hc, hts⟩
      exact hts ▸ le_maxTime (hp.mem_iff.mp hc)
    · rcases List.mem_map.mp (maxTime_mem h') with ⟨c, hc, hts⟩
      exact hts ▸ le_maxTime (hp.mem_iff.mpr hc)

lemma maxActivityRaw_perm {l l' : List Commit} (hp : l.Perm l') :
    maxActivityRaw l = maxActivityRaw l' := by
  rcases eq_or_ne l [] with h | h
  · subst h
    rw [hp.symm.eq_nil]
  · have h' : l' ≠ [] := fun he => by
      subst he
      exact h hp.eq_nil
    refine le_antisymm ?_ ?_
    · rcases List.mem_map.mp (maxActivityRaw_mem h) with ⟨c, hc, hts⟩
      exact hts ▸ le_maxActivityRaw (hp.mem_iff.mp hc)
    · rcases List.mem_map.mp (maxActivityRaw_mem h') with ⟨c, hc, hts⟩
      exact hts ▸ le_maxActivityRaw (hp.mem_iff.mpr hc)

/-! Normalized time position: bounds. -/

lemma timeRange_pos (commits : List Commit) : 0 < timeRange commits := by
  rw [timeRange]
  split
  · exact one_pos
  · rename_i hne
    rcases eq_or_ne commits [] with h | h
    · subst h
      simp [maxTime, minTime] at hne
    · have hmin := List.mem_map.mp (minTime_mem h)
      rcases hmin with ⟨c, hc, hts⟩
      have h1 : minTime commits ≤ c.timestamp := minTime_le hc
      have h2 : c.timestamp ≤ maxTime commits := le_maxTime hc
      omega

lemma sub_min_le_timeRange {commits : List Commit} {c : Commit} (hc : c ∈ commits) :
    c.timestamp - minTime commits ≤ timeRange commits := by
  rw [timeRange]
  have h1 : minTime commits ≤ c.timestamp := minTime_le hc
  have h2 : c.timestamp ≤ maxTime commits := le_maxTime hc
  split <;> omega

lemma tNorm_nonneg {commits : List Commit} {c : Commit} (hc : c ∈ commits) :
    0 ≤ tNorm commits c := by
  rw [tNorm]
  apply div_nonneg
  · exact_mod_cast sub_nonneg.mpr (minTime_le hc)
  · exact_mod_cast (timeRange_pos commits).le

lemma tNorm_le_one {commits : List Commit} {c : Commit} (hc : c ∈ commits) :
    tNorm commits c ≤ 1 := by
  rw [tNorm]
  rw [div_le_one (by exact_mod_cast timeRange_pos commits)]
  exact_mod_cast sub_min_le_timeRange hc

/-! Normalization pass: shape and bounds. -/

lemma onePointZeroQ : (1.0 : ℚ) = 1 := by norm_num

lemma normalizePass_length (b : List ℚ) : (normalizePass b).length = b.length := by
  rw [normalizePass]
  split <;> split <;> simp

lemma normalizePass_of_peak_gt (b : List ℚ) (h : 1 < peakAbs b) :
    normalizePass b = b.map (fun s => s / peakAbs b) := by
  have hne : peakAbs b ≠ 0 := by linarith
  have h' : (1.0 : ℚ) < peakAbs b := by rw [onePointZeroQ]; exact h
  rw [normalizePass]
  simp only [if_neg hne]
  rw [if_pos h']

lemma normalizePass_of_peak_le (b : List ℚ) (h : peakAbs b ≤ 1) :
    normalizePass b = b := by
  rw [normalizePass]
  rcases eq_or_ne (peakAbs b) 0 with h0 | h0
  · simp only [if_pos h0]
    rw [if_neg (by norm_num)]
  · simp only [if_neg h0]
    rw [if_neg (by rw [onePointZeroQ]; exact not_lt.mpr h)]

lemma normalizePass_bounded {b : List ℚ} {s : ℚ} (hs : s ∈ normalizePass b) :
    |s| ≤ 1 := by
  rcases le_or_lt (peakAbs b) 1 with h | h
  · rw [normalizePass_of_peak_le b h] at hs
    exact le_trans (abs_le_peakAbs hs) h
  · rw [normalizePass_of_peak_gt b h] at hs
    rcases List.mem_map.mp hs with ⟨x, hx, rfl⟩
    have hp : (0 : ℚ) < peakAbs b := lt_trans one_pos h
    rw [abs_div, abs_of_pos hp, div_le_one hp]
    exact le_trans (abs_le_peakAbs hx) (le_refl _)

/-! Shape of the sonification result. -/

lemma sonify_eq_some {osc : ℚ → ℚ} {cfg : Config} {commits : List Commit}
    {buf : List ℚ} (hne : commits ≠ []) (h : sonify osc cfg commits = some buf) :
    mixAll osc cfg commits ≠ [] ∧ buf = normalizePass (mixAll osc cfg commits) := by
  rw [sonify, if_neg hne] at h
  rcases hm : mixAll osc cfg commits with _ | ⟨a, rest⟩
  · rw [hm] at h
    cases h
  · rw [hm] at h
    exact ⟨List.cons_ne_nil a rest, by injection h with h; rw [h]⟩

lemma sonify_length {osc : ℚ → ℚ} {cfg : Config} {commits : List Commit}
    {buf : List ℚ} (hne : commits ≠ []) (h : sonify osc cfg commits = some buf) :
    buf.length = totalSamplesNat cfg commits.length := by
  rcases sonify_eq_some hne h with ⟨_, rfl⟩
  rw [normalizePass_length, mixAll_length]

/-! Envelope boundary facts. -/

lemma attackTime_pos {d : ℚ} (hd : 0 < d) : 0 < attackTime d :=
  lt_min (by norm_num) (mul_pos hd (by norm_num))

lemma decayTime_pos {d : ℚ} (hd : 0 < d) : 0 < decayTime d :=
  lt_min (by norm_num) (mul_pos hd (by norm_num))

lemma releaseTime_pos {d : ℚ} (hd : 0 < d) : 0 < releaseTime d :=
  lt_min (by norm_num) (mul_pos hd (by norm_num))

lemma adsr_phase_order {d : ℚ} (hd : 0 < d) :
    attackTime d + decayTime d < d - releaseTime d := by
  have h1 : attackTime d ≤ d * 0.1 := min_le_right _ _
  have h2 : decayTime d ≤ d * 0.2 := min_le_right _ _
  have h3 : releaseTime d ≤ d * 0.3 := min_le_right _ _
  linarith

/-! Congruence of per-commit contributions under equal derived scalars,
and permutation invariance of the whole mix. -/

lemma commitContrib_congr (osc : ℚ → ℚ) (cfg : Config) {l l' : List Commit}
    (h1 : minTime l = minTime l') (h2 : maxTime l = maxTime l')
    (h3 : maxActivityRaw l = maxActivityRaw l') (h4 : l.length = l'.length)
    (c : Commit) : commitContrib osc cfg l c = commitContrib osc cfg l' c := by
  have ht : timeRange l = timeRange l' := by rw [timeRange, timeRange, h1, h2]
  have hma : maxActivity l = maxActivity l' := by rw [maxActivity, maxActivity, h3]
  have hv : commitVolume l c = commitVolume l' c := by
    rw [commitVolume, commitVolume, hma]
  have hs : startSampleZ cfg l c = startSampleZ cfg l' c := by
    rw [startSampleZ, startSampleZ, tNorm, tNorm, h1, ht, h4]
  funext j
  rw [commitContrib, commitContrib, hv, hs, h4]

lemma mixAll_perm (osc : ℚ → ℚ) (cfg : Config) {l l' : List Commit}
    (hp : l.Perm l') : mixAll osc cfg l = mixAll osc cfg l' := by
  have h1 := minTime_perm hp
  have h2 := maxTime_perm hp
  have h3 := maxActivityRaw_perm hp
  have h4 := hp.length_eq
  apply list_eq_of_getD
  · rw [mixAll_length, mixAll_length, h4]
  · intro j
    rw [mixAll_getD, mixAll_getD]
    calc (l.map (fun c => commitContrib osc cfg l c j)).sum
        = (l.map (fun c => commitContrib osc cfg l' c j)).sum := by
          refine congrArg List.sum (List.map_congr_left (fun c _ => ?_))
          rw [commitContrib_congr osc cfg h1 h2 h3 h4 c]
      _ = (l'.map (fun c => commitContrib osc cfg l' c j)).sum :=
          (hp.map (fun c => commitContrib osc cfg l' c j)).sum_eq

lemma sonify_perm (osc : ℚ → ℚ) (cfg : Config) {l l' : List Commit}
    (hp : l.Perm l') : sonify osc cfg l = sonify osc cfg l' := by
  rcases eq_or_ne l [] with h | h
  · subst h
    rw [hp.symm.eq_nil]
  · have h' : l' ≠ [] := fun he => by
      subst he
      exact h hp.eq_nil
    rw [sonify, sonify, if_neg h, if_neg h', mixAll_perm osc cfg hp]

/-- C3: for every note duration d > 0 the envelope is the four-phase
piecewise function of the spec (linear attack on [0, attack_time), linear
decay to 0.7, constant sustain 0.7, linear release to 0), its value at
t = 0 is exactly 0, its value at t = d is exactly 0, and the adjacent
phase formulas agree at every phase boundary (attack and decay both give 1
at attack_time; decay gives 0.7 at attack_time + decay_time, the sustain
value; release gives 0.7 at d - release_time), so the envelope is
continuous there. -/
theorem C3_adsr_envelope (d : ℚ) (hd : 0 < d) :
    adsrEnvelope 0 d = 0 ∧
    adsrEnvelope d d = 0 ∧
    (∀ t, 0 ≤ t → t < attackTime d → adsrEnvelope t d = attackPhaseValue t d) ∧
    (∀ t, attackTime d ≤ t → t < attackTime d + decayTime d →
      adsrEnvelope t d = decayPhaseValue t d) ∧
    (∀ t, attackTime d + decayTime d ≤ t → t < d - releaseTime d →
      adsrEnvelope t d = sustainLevel) ∧
    (∀ t, d - releaseTime d ≤ t → adsrEnvelope t d = releasePhaseValue t d) ∧
    attackPhaseValue (attackTime d) d = 1 ∧
    decayPhaseValue (attackTime d) d = 1 ∧
    decayPhaseValue (attackTime d + decayTime d) d = sustainLevel ∧
    releasePhaseValue (d - releaseTime d) d = sustainLevel := by
  have ha := attackTime_pos hd
  have hdc := decayTime_pos hd
  have hr := releaseTime_pos hd
  have hord := adsr_phase_order hd
  refine ⟨?_, ?_, ?_, ?_, ?_, ?_, ?_, ?_, ?_, ?_⟩
  · rw [adsrEnvelope, if_pos ha, zero_div]
  · have h1 : ¬ (d < attackTime d) := by linarith
    have h2 : ¬ (d < attackTime d + decayTime d) := by linarith
    have h3 : ¬ (d < d - releaseTime d) := by linarith
    rw [adsrEnvelope, if_neg h1, if_neg h2, if_neg h3]
    have : d - (d - releaseTime d) = releaseTime d := by ring
    rw [this, div_self (ne_of_gt hr)]
    norm_num
  · intro t _ h2
    rw [adsrEnvelope, if_pos h2, attackPhaseValue]
  · intro t h1 h2
    rw [adsrEnvelope, if_neg (not_lt.mpr h1), if_pos h2, decayPhaseValue]
  · intro t h1 h2
    have h0 : ¬ (t < attackTime d) := by linarith
    rw [adsrEnvelope, if_neg h0, if_neg (not_lt.mpr h1), if_pos h2]
  · intro t h1
    have h0 : ¬ (t < attackTime d) := by linarith
    have h0' : ¬ (t < attackTime d + decayTime d) := by linarith
    rw [adsrEnvelope, if_neg h0, if_neg h0', if_neg (not_lt.mpr h1), releasePhaseValue]
  · rw [attackPhaseValue, div_self (ne_of_gt ha)]
  · rw [decayPhaseValue, sub_self, zero_div]
    norm_num
  · rw [decayPhaseValue]
    have : attackTime d + decayTime d - attackTime d = decayTime d := by ring
    rw [this, div_self (ne_of_gt hdc), sustainLevel]
    norm_num
  · rw [releasePhaseValue, sub_self, zero_div]
    norm_num

/-- Witness for C3 at the representative duration d = 1/10 (the default
note length): the hypothesis 0 < d holds and the endpoint and boundary
values are as stated. -/
theorem C3_adsr_envelope_witness :
    (0 : ℚ) < 1 / 10 ∧
    adsrEnvelope 0 (1 / 10) = 0 ∧
    adsrEnvelope (1 / 10) (1 / 10) = 0 ∧
    attackPhaseValue (attackTime (1 / 10)) (1 / 10) = 1 ∧
    decayPhaseValue (attackTime (1 / 10)) (1 / 10) = 1 ∧
    decayPhaseValue (attackTime (1 / 10) + decayTime (1 / 10)) (1 / 10) = sustainLevel ∧
    releasePhaseValue ((1 / 10) - releaseTime (1 / 10)) (1 / 10) = sustainLevel := by
  have h := C3_adsr_envelope (1 / 10) (by norm_num)
  exact ⟨by norm_num, h.1, h.2.1, h.2.2.2.2.2.2.1, h.2.2.2.2.2.2.2.1,
    h.2.2.2.2.2.2.2.2.1, h.2.2.2.2.2.2.2.2.2⟩

/-- C4: the frequency multiplier is 0.5 + (additions / activity) * 1.5 when
the activity is positive and exactly 1 when it is zero; it always lies in
[0.5, 2]; a pure-additive event (10, 0) gives exactly 2 and a
pure-subtractive event (0, 10) gives exactly 0.5. -/
theorem C4_frequency_multiplier (a d : ℕ) :
    (0 < a + d →
      frequencyMultiplier a d = 0.5 + ((a : ℚ) / ((a : ℚ) + (d : ℚ))) * 1.5) ∧
    (a + d = 0 → frequencyMultiplier a d = 1) ∧
    0.5 ≤ frequencyMultiplier a d ∧
    frequencyMultiplier a d ≤ 2 ∧
    frequencyMultiplier 10 0 = 2 ∧
    frequencyMultiplier 0 10 = 0.5 := by
  have hbounds : 0.5 ≤ frequencyMultiplier a d ∧ frequencyMultiplier a d ≤ 2 := by
    rw [frequencyMultiplier]
    by_cases h : 0 < a + d
    · rw [if_pos h]
      have hpos : (0 : ℚ) < ((a + d : ℕ) : ℚ) := by exact_mod_cast h
      have hr0 : (0 : ℚ) ≤ (a : ℚ) / ((a + d : ℕ) : ℚ) :=
        div_nonneg (by positivity) hpos.le
      have hr1 : (a : ℚ) / ((a + d : ℕ) : ℚ) ≤ 1 := by
        rw [div_le_one hpos]
        exact_mod_cast Nat.le_add_right a d
      constructor <;> nlinarith
    · rw [if_neg h]
      norm_num
  refine ⟨?_, ?_, hbounds.1, hbounds.2, ?_, ?_⟩
  · intro h
    rw [frequencyMultiplier, if_pos h]
    push_cast
    ring
  · intro h
    rw [frequencyMultiplier, if_neg (by omega)]
    norm_num
  · rw [frequencyMultiplier]
    norm_num
  · rw [frequencyMultiplier]
    norm_num

/-- Witness for C4 at additions = 3, deletions = 1: the positive-activity
hypothesis holds, the multiplier equals the stated formula, and the range
and endpoint facts hold. -/
theorem C4_frequency_multiplier_witness :
    0 < 3 + 1 ∧
    frequencyMultiplier 3 1 = 0.5 + ((3 : ℚ) / ((3 : ℚ) + (1 : ℚ))) * 1.5 ∧
    0.5 ≤ frequencyMultiplier 3 1 ∧
    frequencyMultiplier 3 1 ≤ 2 ∧
    frequencyMultiplier 10 0 = 2 ∧
    frequencyMultiplier 0 10 = 0.5 := by
  have h := C4_frequency_multiplier 3 1
  exact ⟨by norm_num, h.1 (by norm_num), h.2.2.1, h.2.2.2.1, h.2.2.2.2.1, h.2.2.2.2.2⟩

lemma wavInt_bounds (s : ℚ) : -32767 ≤ wavInt s ∧ wavInt s ≤ 32767 := by
  have e1 : (1.0 : ℚ) = 1 := by norm_num
  have e2 : (-1.0 : ℚ) = -1 := by norm_num
  have hc1 : (-1 : ℚ) ≤ max (-1.0) (min 1.0 s) := e2 ▸ le_max_left _ _
  have hc2 : max (-1.0) (min 1.0 s) ≤ 1 :=
    max_le (by norm_num) (e1 ▸ min_le_left _ _)
  constructor
  · rw [wavInt]
    refine le_pyInt_of_le ?_
    push_cast
    nlinarith
  · rw [wavInt]
    refine pyInt_le_of_le ?_
    push_cast
    nlinarith

/-- C8 counterexample: at the sample 1/2 the encoder of `_write_wav`
produces int(0.5 * 32767) = 16383, while round-to-nearest of
0.5 * 32767 = 16383.5 gives 16384; so the conversion is not
round(sample * 32767) as claimed. -/
theorem C8_counterexample :
    wavInt (1 / 2) = 16383 ∧
    (round ((1 / 2 : ℚ) * 32767) : ℤ) = 16384 ∧
    wavInt (1 / 2) ≠ round ((1 / 2 : ℚ) * 32767) := by
  have hw : wavInt (1 / 2) = 16383 := by
    rw [wavInt, show max (-1.0 : ℚ) (min 1.0 (1 / 2)) = 1 / 2 by norm_num, pyInt]
    norm_num
  have hr : (round ((1 / 2 : ℚ) * 32767) : ℤ) = 16384 := by
    rw [round_eq]
    norm_num
  exact ⟨hw, hr, by rw [hw, hr]; decide⟩

/-- C8 amended: at the encoding boundary every sample is first clamped to
[-1, 1] (the clamp takes effect on every out-of-range sample even after
normalization) and then converted to a 16-bit integer by truncation toward
zero of sample * 32767 (Python int(), not round-to-nearest); consequently
every encoded sample lies in [-32767, 32767]. -/
theorem C8_encoding_clamps_then_truncates (s : ℚ) :
    (-1 ≤ s → s ≤ 1 → wavInt s = pyInt (s * 32767)) ∧
    (1 < s → wavInt s = 32767) ∧
    (s < -1 → wavInt s = -32767) ∧
    (-32767 ≤ wavInt s ∧ wavInt s ≤ 32767) ∧
    (∀ l : List ℚ, ∀ x ∈ wavData l, -32767 ≤ x ∧ x ≤ 32767) := by
  have e1 : (1.0 : ℚ) = 1 := by norm_num
  refine ⟨?_, ?_, ?_, wavInt_bounds s, ?_⟩
  · intro h1 h2
    rw [wavInt, e1, min_eq_right h2, max_eq_right h1]
  · intro h
    rw [wavInt, e1, min_eq_left h.le, max_eq_right (by norm_num)]
    rw [show ((1 : ℚ) * 32767) = ((32767 : ℤ) : ℚ) by norm_num, pyInt_intCast]
  · intro h
    rw [wavInt, e1, min_eq_right (by linarith), max_eq_left (by linarith)]
    rw [show ((-1 : ℚ) * 32767) = ((-32767 : ℤ) : ℚ) by norm_num, pyInt_intCast]
  · intro l x hx
    rcases List.mem_map.mp hx with ⟨y, _, rfl⟩
    exact wavInt_bounds y

/-- Witness for C8 amended at the in-range sample 1/2 and the out-of-range
sample 3/2: hypotheses hold and the stated encodings result. -/
theorem C8_encoding_witness :
    ((-1 : ℚ) ≤ 1 / 2 ∧ (1 / 2 : ℚ) ≤ 1 ∧ wavInt (1 / 2) = pyInt ((1 / 2 : ℚ) * 32767)) ∧
    ((1 : ℚ) < 3 / 2 ∧ wavInt (3 / 2) = 32767) ∧
    (-32767 ≤ wavInt (1 / 2) ∧ wavInt (1 / 2) ≤ 32767) := by
  have h1 := C8_encoding_clamps_then_truncates (1 / 2)
  have h2 := C8_encoding_clamps_then_truncates (3 / 2)
  exact ⟨⟨by norm_num, by norm_num, h1.1 (by norm_num) (by norm_num)⟩,
    ⟨by norm_num, h2.2.1 (by norm_num)⟩, h1.2.2.2.1⟩

/-- C9: for the empty event list the render produces a buffer of exactly
sample_rate samples (1.0 second of silence at the configured rate), every
sample equal to 0, rather than erroring. -/
theorem C9_empty_event_list (osc : ℚ → ℚ) (cfg : Config) (hsr : 0 < cfg.sample_rate) :
    generateSamples osc cfg [] = some (List.replicate cfg.sample_rate.toNat 0) ∧
    (writeSilenceSamples cfg 1.0).length = cfg.sample_rate.toNat ∧
    ((cfg.sample_rate.toNat : ℤ) = cfg.sample_rate) ∧
    (∀ s ∈ writeSilenceSamples cfg 1.0, s = 0) := by
  have h1 : writeSilenceSamples cfg 1.0 = List.replicate cfg.sample_rate.toNat 0 := by
    rw [writeSilenceSamples]
    congr 2
    rw [show (1.0 : ℚ) * (cfg.sample_rate : ℚ) = ((cfg.sample_rate : ℤ) : ℚ) by ring]
    rw [pyInt_intCast]
  refine ⟨?_, ?_, Int.toNat_of_nonneg hsr.le, ?_⟩
  · rw [generateSamples, if_pos rfl, h1]
  · rw [h1, List.length_replicate]
  · intro s hs
    rw [h1] at hs
    exact List.eq_of_mem_replicate hs

/-- Witness for C9 at the default configuration (sample_rate 44100): the
positivity hypothesis holds and the render of the empty list is exactly
44100 zero samples. -/
theorem C9_empty_event_list_witness :
    (0 : ℤ) < 44100 ∧
    generateSamples (fun _ => 0) ⟨44100, 1 / 10, 220⟩ [] =
      some (List.replicate ((44100 : ℤ)).toNat 0) ∧
    (writeSilenceSamples ⟨44100, 1 / 10, 220⟩ 1.0).length = ((44100 : ℤ)).toNat := by
  have h := C9_empty_event_list (fun _ => 0) ⟨44100, 1 / 10, 220⟩ (by norm_num)
  exact ⟨by norm_num, h.1, h.2.1⟩

/-! Evaluation helpers: renders whose every contribution vanishes. -/

lemma noteSampleValue_osc_zero (cfg : Config) (f v d : ℚ) (i : ℕ) :
    noteSampleValue (fun _ => 0) cfg f v d i = 0 := by
  simp [noteSampleValue, noteWave]

lemma noteContrib_osc_zero (cfg : Config) (f v d : ℚ) (start total ns j : ℕ) :
    noteContrib (fun _ => 0) cfg f v d start total ns j = 0 := by
  rw [noteContrib]
  split
  · exact noteSampleValue_osc_zero cfg f v d _
  · rfl

lemma commitContrib_zero_of_ge (osc : ℚ → ℚ) (cfg : Config) (commits : List Commit)
    (c : Commit) {j : ℕ} (hj : totalSamplesNat cfg commits.length ≤ j) :
    commitContrib osc cfg commits c j = 0 := by
  rw [commitContrib, noteContrib, if_neg (fun hcon => absurd hcon.2.2 (not_lt.mpr hj))]

lemma mixAll_eq_replicate {osc : ℚ → ℚ} {cfg : Config} {commits : List Commit}
    (h : ∀ c ∈ commits, ∀ j, commitContrib osc cfg commits c j = 0) :
    mixAll osc cfg commits = List.replicate (totalSamplesNat cfg commits.length) 0 := by
  apply list_eq_of_getD
  · rw [mixAll_length, List.length_replicate]
  · intro j
    rw [mixAll_getD, getD_replicate]
    refine List.sum_eq_zero (fun x hx => ?_)
    rcases List.mem_map.mp hx with ⟨c, hc, rfl⟩
    exact h c hc j

lemma foldl_max_replicate_zero : ∀ n : ℕ, (List.replicate n (0 : ℚ)).foldl max 0 = 0
  | 0 => rfl
  | n + 1 => by
    rw [List.replicate_succ, List.foldl_cons, max_self]
    exact foldl_max_replicate_zero n

lemma peakAbs_replicate_zero (n : ℕ) : peakAbs (List.replicate n (0 : ℚ)) = 0 := by
  match n with
  | 0 => rfl
  | n + 1 =>
    rw [List.replicate_succ, peakAbs]
    simp only [List.map_replicate, abs_zero]
    exact foldl_max_replicate_zero n

/-- With the identically-zero oscillator the render of a nonempty commit
list is an all-zero buffer of total_samples samples, or the ValueError
result when total_samples = 0. -/
lemma sonify_osc_zero (cfg : Config) (commits : List Commit) (hne : commits ≠ []) :
    sonify (fun _ => 0) cfg commits =
      if totalSamplesNat cfg commits.length = 0 then none
      else some (List.replicate (totalSamplesNat cfg commits.length) 0) := by
  have hmix : mixAll (fun _ => 0) cfg commits =
      List.replicate (totalSamplesNat cfg commits.length) 0 :=
    mixAll_eq_replicate (fun c _ j => by
      rw [commitContrib]
      exact noteContrib_osc_zero cfg _ _ _ _ _ _ j)
  rw [sonify, if_neg hne, hmix]
  cases h : totalSamplesNat cfg commits.length with
  | zero => rfl
  | succ n =>
    rw [List.replicate_succ, if_neg (Nat.succ_ne_zero n)]
    have hp : peakAbs ((0 : ℚ) :: List.replicate n 0) ≤ 1 := by
      rw [← List.replicate_succ, peakAbs_replicate_zero]
      norm_num
    show some (normalizePass ((0 : ℚ) :: List.replicate n 0)) =
      some ((0 : ℚ) :: List.replicate n 0)
    rw [normalizePass_of_peak_le _ hp]

lemma totalSamplesNat_one_one : totalSamplesNat ⟨1, 1, 220⟩ 1 = 1 := by
  norm_num [totalSamplesNat, totalSamplesZ, totalDuration, pyInt, min_def]

/-- Evaluated render: one commit, sample_rate 1, one second per commit,
zero oscillator gives the one-sample zero buffer. -/
lemma eval_sonify_one : sonify (fun _ => 0) ⟨1, 1, 220⟩ [⟨0, 1, 0⟩] = some [0] := by
  rw [sonify_osc_zero _ _ (by simp),
    show [(⟨0, 1, 0⟩ : Commit)].length = 1 from rfl, totalSamplesNat_one_one]
  rfl

/-- C5 (supporting theorem): with the positive configuration
sample_rate = 1, duration_per_commit = 0.1 and one commit, the buffer has
length int(0.1 * 1) = 0, and the render reaches max() over an empty
sequence: Python raises ValueError (modelled by none), contradicting the
no-raise claim. -/
theorem C5_render_raises_on_zero_length_buffer :
    (0 : ℤ) < 1 ∧ (0 : ℚ) < 1 / 10 ∧
    sonify (fun _ => 0) ⟨1, 1 / 10, 220⟩ [⟨0, 1, 0⟩] = none := by
  refine ⟨by norm_num, by norm_num, ?_⟩
  have h0 : totalSamplesNat ⟨1, 1 / 10, 220⟩ 1 = 0 := by
    norm_num [totalSamplesNat, totalSamplesZ, totalDuration, pyInt, min_def]
  rw [sonify_osc_zero _ _ (by simp),
    show [(⟨0, 1, 0⟩ : Commit)].length = 1 from rfl, h0]
  rfl

/-- C1: whenever the render produces a buffer, every sample of it lies in
[-1, 1]; the normalization pass divides every sample by the peak exactly
when the peak exceeds 1, leaves the buffer unchanged when the peak is at
most 1, and in particular is a no-op when the peak is 0 (the or-1 divisor
guard). -/
theorem C1_output_within_unit_range (osc : ℚ → ℚ) (cfg : Config)
    (commits : List Commit) (buf : List ℚ)
    (h : generateSamples osc cfg commits = some buf) :
    (∀ s ∈ buf, -1 ≤ s ∧ s ≤ 1) ∧
    (∀ b : List ℚ,
      (1 < peakAbs b → normalizePass b = b.map (fun s => s / peakAbs b)) ∧
      (peakAbs b ≤ 1 → normalizePass b = b) ∧
      (peakAbs b = 0 → normalizePass b = b)) := by
  constructor
  · intro s hs
    rcases eq_or_ne commits [] with hc | hc
    · rw [generateSamples, if_pos hc] at h
      injection h with h
      subst h
      rw [writeSilenceSamples] at hs
      rw [List.eq_of_mem_replicate hs]
      norm_num
    · rw [generateSamples, if_neg hc] at h
      rcases sonify_eq_some hc h with ⟨_, rfl⟩
      exact abs_le.mp (normalizePass_bounded hs)
  · intro b
    exact ⟨normalizePass_of_peak_gt b, normalizePass_of_peak_le b,
      fun h0 => normalizePass_of_peak_le b (by rw [h0]; norm_num)⟩

/-- Witness for C1: the render of one commit at sample_rate 1 with the
zero oscillator is the buffer with the single sample 0, which lies in
[-1, 1]. -/
theorem C1_output_within_unit_range_witness :
    generateSamples (fun _ => 0) ⟨1, 1, 220⟩ [⟨0, 1, 0⟩] = some [0] ∧
    ((-1 : ℚ) ≤ 0 ∧ (0 : ℚ) ≤ 1) := by
  have he : generateSamples (fun _ => 0) ⟨1, 1, 220⟩ [⟨0, 1, 0⟩] = some [0] := by
    rw [generateSamples, if_neg (by simp)]
    exact eval_sonify_one
  exact ⟨he, (C1_output_within_unit_range _ _ _ _ he).1 0 (by simp)⟩

/-- C2 counterexample: with sample_rate 10, duration_per_event 0.17 and one
event the render returns a buffer of length int(1.7) = 1, while
round(min(60, 1 * 0.17) * 10) = round(1.7) = 2; the claimed round-to-nearest
length is wrong (the code truncates). -/
theorem C2_counterexample :
    sonify (fun _ => 0) ⟨10, 17 / 100, 220⟩ [⟨0, 1, 0⟩] = some [0] ∧
    ([(0 : ℚ)].length : ℤ) = 1 ∧
    (round (min (60.0 : ℚ) ((1 : ℚ) * (17 / 100)) * ((10 : ℤ) : ℚ)) : ℤ) = 2 ∧
    (1 : ℤ) ≠ 2 := by
  refine ⟨?_, by norm_num, ?_, by norm_num⟩
  · have h1 : totalSamplesNat ⟨10, 17 / 100, 220⟩ 1 = 1 := by
      norm_num [totalSamplesNat, totalSamplesZ, totalDuration, pyInt, min_def]
    rw [sonify_osc_zero _ _ (by simp),
      show [(⟨0, 1, 0⟩ : Commit)].length = 1 from rfl, h1]
    rfl
  · rw [show (min (60.0 : ℚ) ((1 : ℚ) * (17 / 100)) * ((10 : ℤ) : ℚ)) = 17 / 10 by
      norm_num [min_def]]
    rw [round_eq]
    norm_num

/-- C2 amended: for every nonempty event list, whenever the render returns
a buffer its length equals the truncation toward zero (Python int(), not
round-to-nearest) of min(60.0, N * duration_per_event) * sample_rate. -/
theorem C2_buffer_length (osc : ℚ → ℚ) (cfg : Config) (commits : List Commit)
    (buf : List ℚ) (hne : commits ≠ []) (h : sonify osc cfg commits = some buf) :
    buf.length =
      (pyInt (min 60.0 ((commits.length : ℚ) * cfg.duration_per_commit) *
        (cfg.sample_rate : ℚ))).toNat := by
  rw [sonify_length hne h]
  rfl

/-- Witness for C2 amended: one commit at sample_rate 1 and one second per
commit; the render returns the one-sample buffer and the truncated length
formula gives 1. -/
theorem C2_buffer_length_witness :
    [(⟨0, 1, 0⟩ : Commit)] ≠ [] ∧
    sonify (fun _ => 0) ⟨1, 1, 220⟩ [⟨0, 1, 0⟩] = some [0] ∧
    [(0 : ℚ)].length =
      (pyInt (min 60.0 (([(⟨0, 1, 0⟩ : Commit)].length : ℚ) * (1 : ℚ)) *
        ((1 : ℤ) : ℚ))).toNat := by
  refine ⟨by simp, eval_sonify_one, ?_⟩
  exact C2_buffer_length (fun _ => 0) ⟨1, 1, 220⟩ _ _ (by simp) eval_sonify_one

/-- C6: for every event of a render with positive configuration, the
normalized time t_norm lies in [0, 1] by construction and the start sample
is floor(t_norm * total_samples); the mixing loop leaves the buffer length
unchanged, the value at every index is exactly the sum of the per-event
contributions there, and every contribution vanishes at indices at or
beyond the buffer length (overrunning writes are dropped, the note is
truncated, never wrapped or extended). -/
theorem C6_placement_and_truncation (osc : ℚ → ℚ) (cfg : Config)
    (commits : List Commit) (c : Commit) (hc : c ∈ commits)
    (hsr : 0 < cfg.sample_rate) (hdur : 0 < cfg.duration_per_commit) :
    0 ≤ tNorm commits c ∧ tNorm commits c ≤ 1 ∧
    startSampleZ cfg commits c =
      ⌊tNorm commits c * ((totalSamplesZ cfg commits.length : ℤ) : ℚ)⌋ ∧
    (mixAll osc cfg commits).length = totalSamplesNat cfg commits.length ∧
    (∀ j, (mixAll osc cfg commits).getD j 0 =
      (commits.map (fun e => commitContrib osc cfg commits e j)).sum) ∧
    (∀ j, totalSamplesNat cfg commits.length ≤ j →
      commitContrib osc cfg commits c j = 0) := by
  have hne : commits ≠ [] := List.ne_nil_of_mem hc
  have hlen : 0 < commits.length := List.length_pos.mpr hne
  have htd : 0 < totalDuration cfg commits.length := by
    rw [totalDuration]
    refine lt_min (by norm_num) (mul_pos ?_ hdur)
    exact_mod_cast hlen
  have hts : (0 : ℚ) ≤ ((totalSamplesZ cfg commits.length : ℤ) : ℚ) := by
    have : 0 ≤ totalSamplesZ cfg commits.length := by
      rw [totalSamplesZ]
      exact pyInt_nonneg (mul_pos htd (by exact_mod_cast hsr)).le
    exact_mod_cast this
  refine ⟨tNorm_nonneg hc, tNorm_le_one hc, ?_, mixAll_length osc cfg commits,
    mixAll_getD osc cfg commits, fun j hj => commitContrib_zero_of_ge osc cfg commits c hj⟩
  rw [startSampleZ, pyInt_of_nonneg (mul_nonneg (tNorm_nonneg hc) hts)]

/-- Witness for C6: one commit with timestamp 0 at sample_rate 1 and one
second per commit; the hypotheses hold, t_norm is in [0, 1], the start
sample is the floor value and the mixing loop preserves the buffer
length. -/
theorem C6_placement_and_truncation_witness :
    (⟨0, 1, 0⟩ : Commit) ∈ [(⟨0, 1, 0⟩ : Commit)] ∧ (0 : ℤ) < 1 ∧ (0 : ℚ) < 1 ∧
    0 ≤ tNorm [⟨0, 1, 0⟩] ⟨0, 1, 0⟩ ∧ tNorm [⟨0, 1, 0⟩] ⟨0, 1, 0⟩ ≤ 1 ∧
    startSampleZ ⟨1, 1, 220⟩ [⟨0, 1, 0⟩] ⟨0, 1, 0⟩ =
      ⌊tNorm [⟨0, 1, 0⟩] ⟨0, 1, 0⟩ * ((totalSamplesZ ⟨1, 1, 220⟩ 1 : ℤ) : ℚ)⌋ ∧
    (mixAll (fun _ => 0) ⟨1, 1, 220⟩ [⟨0, 1, 0⟩]).length =
      totalSamplesNat ⟨1, 1, 220⟩ 1 := by
  have h := C6_placement_and_truncation (fun _ => 0) ⟨1, 1, 220⟩ [⟨0, 1, 0⟩] ⟨0, 1, 0⟩
    (by simp) (by norm_num) (by norm_num)
  exact ⟨by simp, by norm_num, by norm_num, h.1, h.2.1, h.2.2.1, h.2.2.2.1⟩

/-- C10: the render is invariant under permutation of the event list: the
derived scalars min_time, max_time and the raw peak activity depend only on
the multiset of events, the list length is preserved, and both the
sonification and the full generate pipeline produce the same buffer. -/
theorem C10_permutation_invariance (osc : ℚ → ℚ) (cfg : Config)
    (l l' : List Commit) (hp : l.Perm l') :
    minTime l = minTime l' ∧ maxTime l = maxTime l' ∧
    maxActivityRaw l = maxActivityRaw l' ∧ l.length = l'.length ∧
    sonify osc cfg l = sonify osc cfg l' ∧
    generateSamples osc cfg l = generateSamples osc cfg l' := by
  refine ⟨minTime_perm hp, maxTime_perm hp, maxActivityRaw_perm hp, hp.length_eq,
    sonify_perm osc cfg hp, ?_⟩
  rcases eq_or_ne l [] with h | h
  · subst h
    rw [hp.symm.eq_nil]
  · have h' : l' ≠ [] := fun he => by
      subst he
      exact h hp.eq_nil
    rw [generateSamples, generateSamples, if_neg h, if_neg h', sonify_perm osc cfg hp]

/-- Witness for C10: the two-element list of distinct commits and its swap;
the permutation hypothesis is discharged by the swap constructor and the
renders coincide. -/
theorem C10_permutation_invariance_witness :
    minTime [(⟨0, 1, 0⟩ : Commit), ⟨5, 0, 2⟩] = minTime [(⟨5, 0, 2⟩ : Commit), ⟨0, 1, 0⟩] ∧
    maxActivityRaw [(⟨0, 1, 0⟩ : Commit), ⟨5, 0, 2⟩] =
      maxActivityRaw [(⟨5, 0, 2⟩ : Commit), ⟨0, 1, 0⟩] ∧
    sonify (fun _ => 0) ⟨1, 1, 220⟩ [⟨0, 1, 0⟩, ⟨5, 0, 2⟩] =
      sonify (fun _ => 0) ⟨1, 1, 220⟩ [⟨5, 0, 2⟩, ⟨0, 1, 0⟩] := by
  have h := C10_permutation_invariance (fun _ => 0) ⟨1, 1, 220⟩
    [⟨0, 1, 0⟩, ⟨5, 0, 2⟩] [⟨5, 0, 2⟩, ⟨0, 1, 0⟩]
    (List.Perm.swap (⟨5, 0, 2⟩ : Commit) (⟨0, 1, 0⟩ : Commit) [])
  exact ⟨h.1, h.2.2.1, h.2.2.2.2.1⟩

/-! Zero-volume notes contribute nothing, for every oscillator. -/

lemma noteSampleValue_zero_volume (osc : ℚ → ℚ) (cfg : Config) (f d : ℚ) (i : ℕ) :
    noteSampleValue osc cfg f 0 d i = 0 := by
  simp [noteSampleValue]

lemma commitContrib_of_volume_zero (osc : ℚ → ℚ) (cfg : Config)
    {commits : List Commit} {c : Commit} (hv : commitVolume commits c = 0) (j : ℕ) :
    commitContrib osc cfg commits c j = 0 := by
  rw [commitContrib, hv, noteContrib]
  split
  · exact noteSampleValue_zero_volume osc cfg _ _ _
  · rfl

/-- C7 counterexample: the claim that for every pair of events with equal
timestamps the pre-normalization peak at their shared offset strictly
exceeds the peak either event contributes alone is false: for two
zero-activity events the volume is 0, every contribution is 0 for every
oscillator, and both peaks are 0 (the peak the event would produce alone
is read off in the same render context). -/
theorem C7_counterexample :
    ¬ (∀ (osc : ℚ → ℚ) (cfg : Config) (e1 e2 : Commit),
        e1.timestamp = e2.timestamp →
        startSampleZ cfg [e1, e2] e1 = startSampleZ cfg [e1, e2] e2 ∧
        contribPeak osc cfg [e1, e2] e1 < peakAbs (mixAll osc cfg [e1, e2]) ∧
        contribPeak osc cfg [e1, e2] e2 < peakAbs (mixAll osc cfg [e1, e2])) := by
  intro hclaim
  have hv : commitVolume [(⟨0, 0, 0⟩ : Commit), ⟨0, 0, 0⟩] ⟨0, 0, 0⟩ = 0 := by
    norm_num [commitVolume, min_def]
  have hzero := commitContrib_of_volume_zero (fun _ => (0 : ℚ)) ⟨1, 1, 220⟩ hv
  have hmem : ∀ c ∈ [(⟨0, 0, 0⟩ : Commit), ⟨0, 0, 0⟩], ∀ j,
      commitContrib (fun _ => 0) ⟨1, 1, 220⟩ [⟨0, 0, 0⟩, ⟨0, 0, 0⟩] c j = 0 := by
    intro c hc j
    have hcx : c = ⟨0, 0, 0⟩ := by simpa using hc
    subst hcx
    exact hzero j
  have hmix := mixAll_eq_replicate hmem
  have h := (hclaim (fun _ => 0) ⟨1, 1, 220⟩ ⟨0, 0, 0⟩ ⟨0, 0, 0⟩ rfl).2.1
  rw [hmix, peakAbs_replicate_zero] at h
  have hcp : contribPeak (fun _ => 0) ⟨1, 1, 220⟩ [⟨0, 0, 0⟩, ⟨0, 0, 0⟩] ⟨0, 0, 0⟩ = 0 := by
    rw [contribPeak, List.map_congr_left (fun j _ => hzero j), List.map_const',
      List.length_range, peakAbs_replicate_zero]
  rw [hcp] at h
  exact lt_irrefl 0 h

/-- C7 amended: two events with identical timestamps map to the same
start_sample and their waveforms are summed into the buffer (the
pre-normalization buffer value at every index is the sum of the two
per-event contributions, both read off in the same render context); for
two identical events the pre-normalization peak equals twice the peak
either event contributes alone, hence is at least that peak, and strictly
exceeds it exactly when the single contribution is nonzero (zero-activity
pairs give peak 0 = 0). -/
theorem C7_identical_timestamps_mix (osc : ℚ → ℚ) (cfg : Config) (e1 e2 : Commit)
    (h : e1.timestamp = e2.timestamp) :
    startSampleZ cfg [e1, e2] e1 = startSampleZ cfg [e1, e2] e2 ∧
    (∀ j, (mixAll osc cfg [e1, e2]).getD j 0 =
      commitContrib osc cfg [e1, e2] e1 j + commitContrib osc cfg [e1, e2] e2 j) ∧
    (e1 = e2 →
      peakAbs (mixAll osc cfg [e1, e2]) = 2 * contribPeak osc cfg [e1, e2] e1 ∧
      contribPeak osc cfg [e1, e2] e1 ≤ peakAbs (mixAll osc cfg [e1, e2]) ∧
      (0 < contribPeak osc cfg [e1, e2] e1 →
        contribPeak osc cfg [e1, e2] e1 < peakAbs (mixAll osc cfg [e1, e2]))) := by
  refine ⟨?_, ?_, ?_⟩
  · rw [startSampleZ, startSampleZ, tNorm, tNorm, h]
  · intro j
    rw [mixAll_getD]
    simp
  · intro he
    subst he
    have hsum : ∀ j, (mixAll osc cfg [e1, e1]).getD j 0 =
        2 * commitContrib osc cfg [e1, e1] e1 j := by
      intro j
      rw [mixAll_getD]
      simp only [List.map_cons, List.map_nil, List.sum_cons, List.sum_nil]
      ring
    have hM : mixAll osc cfg [e1, e1] =
        ((List.range (totalSamplesNat cfg [e1, e1].length)).map
          (commitContrib osc cfg [e1, e1] e1)).map (fun x => 2 * x) := by
      apply list_eq_of_getD
      · rw [mixAll_length]
        simp
      · intro j
        rw [hsum j, List.map_map, getD_map_range]
        by_cases hj : j < totalSamplesNat cfg [e1, e1].length
        · rw [if_pos hj]
          simp [Function.comp]
        · rw [if_neg hj,
            commitContrib_zero_of_ge osc cfg [e1, e1] e1 (not_lt.mp hj)]
          ring
    have key : peakAbs (mixAll osc cfg [e1, e1]) =
        2 * contribPeak osc cfg [e1, e1] e1 := by
      rw [hM, peakAbs_map_mul (by norm_num : (0 : ℚ) ≤ 2), contribPeak]
    have hnn : 0 ≤ contribPeak osc cfg [e1, e1] e1 := peakAbs_nonneg _
    exact ⟨key, by rw [key]; linarith, fun hpos => by rw [key]; linarith⟩

/-- Witness for C7 amended: two identical commits with one addition at
sample_rate 2 and one second per commit, with the constant-one oscillator;
the single-note peak evaluates to 147/1000, the mixed peak is exactly twice
that, and the strict inequality holds. -/
theorem C7_identical_timestamps_mix_witness :
    (⟨0, 1, 0⟩ : Commit).timestamp = (⟨0, 1, 0⟩ : Commit).timestamp ∧
    contribPeak (fun _ => 1) ⟨2, 1, 220⟩ [(⟨0, 1, 0⟩ : Commit), ⟨0, 1, 0⟩] ⟨0, 1, 0⟩ =
      147 / 1000 ∧
    peakAbs (mixAll (fun _ => 1) ⟨2, 1, 220⟩ [(⟨0, 1, 0⟩ : Commit), ⟨0, 1, 0⟩]) =
      2 * contribPeak (fun _ => 1) ⟨2, 1, 220⟩ [(⟨0, 1, 0⟩ : Commit), ⟨0, 1, 0⟩] ⟨0, 1, 0⟩ ∧
    contribPeak (fun _ => 1) ⟨2, 1, 220⟩ [(⟨0, 1, 0⟩ : Commit), ⟨0, 1, 0⟩] ⟨0, 1, 0⟩ <
      peakAbs (mixAll (fun _ => 1) ⟨2, 1, 220⟩ [(⟨0, 1, 0⟩ : Commit), ⟨0, 1, 0⟩]) := by
  have hmin : minTime [(⟨0, 1, 0⟩ : Commit), ⟨0, 1, 0⟩] = 0 := by simp [minTime]
  have htn : tNorm [(⟨0, 1, 0⟩ : Commit), ⟨0, 1, 0⟩] ⟨0, 1, 0⟩ = 0 := by
    rw [tNorm, hmin]
    norm_num
  have hstart : (startSampleZ ⟨2, 1, 220⟩ [(⟨0, 1, 0⟩ : Commit), ⟨0, 1, 0⟩] ⟨0, 1, 0⟩).toNat
      = 0 := by
    rw [startSampleZ, htn]
    norm_num [pyInt]
  have hvol : commitVolume [(⟨0, 1, 0⟩ : Commit), ⟨0, 1, 0⟩] ⟨0, 1, 0⟩ = 1 / 2 := by
    norm_num [commitVolume, maxActivity, maxActivityRaw, min_def]
  have hlen2 : ([(⟨0, 1, 0⟩ : Commit), ⟨0, 1, 0⟩]).length = 2 := rfl
  have htot : totalSamplesNat ⟨2, 1, 220⟩ 2 = 4 := by
    norm_num [totalSamplesNat, totalSamplesZ, totalDuration, pyInt, min_def]
    decide
  have hns : noteSamplesNat ⟨2, 1, 220⟩ = 2 := by
    norm_num [noteSamplesNat, pyInt]
    decide
  have hv0 : noteSampleValue (fun _ => 1) ⟨2, 1, 220⟩
      (commitFrequency ⟨2, 1, 220⟩ ⟨0, 1, 0⟩) (1 / 2) 1 0 = 0 := by
    norm_num [noteSampleValue, noteWave, adsrEnvelope, attackTime, min_def]
  have hv1 : noteSampleValue (fun _ => 1) ⟨2, 1, 220⟩
      (commitFrequency ⟨2, 1, 220⟩ ⟨0, 1, 0⟩) (1 / 2) 1 1 = 147 / 1000 := by
    norm_num [noteSampleValue, noteWave, adsrEnvelope, attackTime, decayTime,
      releaseTime, sustainLevel, min_def]
  have hcc : ∀ j, commitContrib (fun _ => 1) ⟨2, 1, 220⟩
      [(⟨0, 1, 0⟩ : Commit), ⟨0, 1, 0⟩] ⟨0, 1, 0⟩ j =
      noteContrib (fun _ => 1) ⟨2, 1, 220⟩ (commitFrequency ⟨2, 1, 220⟩ ⟨0, 1, 0⟩)
        (1 / 2) 1 0 4 2 j := by
    intro j
    rw [commitContrib, hvol, hstart, hlen2, htot, hns]
  have hc0 : noteContrib (fun _ => 1) ⟨2, 1, 220⟩ (commitFrequency ⟨2, 1, 220⟩ ⟨0, 1, 0⟩)
      (1 / 2) 1 0 4 2 0 = 0 := by
    rw [noteContrib, if_pos (by omega)]
    exact hv0
  have hc1 : noteContrib (fun _ => 1) ⟨2, 1, 220⟩ (commitFrequency ⟨2, 1, 220⟩ ⟨0, 1, 0⟩)
      (1 / 2) 1 0 4 2 1 = 147 / 1000 := by
    rw [noteContrib, if_pos (by omega)]
    exact hv1
  have hc2 : noteContrib (fun _ => 1) ⟨2, 1, 220⟩ (commitFrequency ⟨2, 1, 220⟩ ⟨0, 1, 0⟩)
      (1 / 2) 1 0 4 2 2 = 0 := by
    rw [noteContrib, if_neg (by omega)]
  have hc3 : noteContrib (fun _ => 1) ⟨2, 1, 220⟩ (commitFrequency ⟨2, 1, 220⟩ ⟨0, 1, 0⟩)
      (1 / 2) 1 0 4 2 3 = 0 := by
    rw [noteContrib, if_neg (by omega)]
  have hcp : contribPeak (fun _ => 1) ⟨2, 1, 220⟩
      [(⟨0, 1, 0⟩ : Commit), ⟨0, 1, 0⟩] ⟨0, 1, 0⟩ = 147 / 1000 := by
    rw [contribPeak, hlen2, htot, show List.range 4 = [0, 1, 2, 3] from rfl]
    simp only [List.map_cons, List.map_nil]
    rw [hcc 0, hcc 1, hcc 2, hcc 3, hc0, hc1, hc2, hc3, peakAbs]
    simp only [List.map_cons, List.map_nil, abs_zero, List.foldl_cons, List.foldl_nil]
    rw [show |(147 / 1000 : ℚ)| = 147 / 1000 from abs_of_nonneg (by norm_num)]
    norm_num [max_def]
  have h3 := (C7_identical_timestamps_mix (fun _ => 1) ⟨2, 1, 220⟩
    ⟨0, 1, 0⟩ ⟨0, 1, 0⟩ rfl).2.2 rfl
  exact ⟨rfl, hcp, h3.1, h3.2.2 (by rw [hcp]; norm_num)⟩

end RepoArt
